import Mathlib

/-!
Verification of the ranking engine of project-brain (brain.py).

Strings are embedded as lists of characters; Python floats are embedded as
exact rationals; the natural logarithm used by the external BM25 routine is
abstracted as a parameter of type rational to rational.
-/

/-- Characters of a Python string, in order. -/
abbrev Chars := List Char

/-- Character list of a Lean string literal. -/
def cl (s : String) : Chars := s.data

/-- Membership in the character class a token may start with (regex [a-z0-9]
applies to lowercased text). -/
def isAlnum (c : Char) : Bool :=
  (('a' ≤ c && c ≤ 'z') || ('0' ≤ c && c ≤ '9'))

/-- Membership in the character class a token may continue with
(regex [-a-z0-9]). -/
def isTokChar (c : Char) : Bool := isAlnum c || c == '-'

/-- Whitespace characters removed by the str.strip method. -/
def isWS (c : Char) : Bool :=
  c == ' ' || c == '\t' || c == '\n' || c == '\r' ||
  c == '\x0b' || c == '\x0c'

/-- Separator class of the link splitting regex [,;]+. -/
def isSep (c : Char) : Bool := c == ',' || c == ';'

/-- Boolean test that suf is a suffix of w (Python str.endswith). -/
def endsW (w suf : Chars) : Bool := w.reverse.take suf.length == suf.reverse

/-- Boolean test that pre begins w (Python str.startswith). -/
def startsW (w pre : Chars) : Bool := w.take pre.length == pre

/-- Python slice word[:-n]: all but the last n characters. -/
def dropR (w : Chars) (n : Nat) : Chars := w.take (w.length - n)

/-- Python substring containment (needle in hay). -/
def strIn (needle hay : Chars) : Bool :=
  (List.range (hay.length + 1)).any
    (fun i => (hay.drop i).take needle.length == needle)

/-- Boolean test that a word's last two characters exist and are equal
(the doubled-letter check base[-1] == base[-2] with len(base) >= 2). -/
def lastTwoEq (l : Chars) : Bool :=
  match l.reverse with
  | a :: b :: _ => a == b
  | _ => false

/-- Python str.strip: remove leading and trailing whitespace. -/
def strip (s : Chars) : Chars :=
  ((s.dropWhile isWS).reverse.dropWhile isWS).reverse

/-- Split on every single occurrence of a separator character, keeping empty
pieces (Python str.split with one-character separator); cur accumulates the
current piece in reverse. -/
def splitChAux (sep : Char) : List Char → List Char → List Chars
  | [], cur => [cur.reverse]
  | c :: rest, cur =>
    if c == sep then cur.reverse :: splitChAux sep rest []
    else splitChAux sep rest (c :: cur)

/-- Split a string on a single separator character, keeping empty pieces. -/
def splitCh (sep : Char) (s : Chars) : List Chars := splitChAux sep s []

/-- Split on maximal runs of comma or semicolon (re.split with [,;]+); cur
accumulates the current piece in reverse and inSep records whether the
previous character belonged to a separator run. -/
def splitRunsAux : List Char → List Char → Bool → List Chars
  | [], cur, _ => [cur.reverse]
  | c :: rest, cur, inSep =>
    if isSep c then
      if inSep then splitRunsAux rest [] true
      else cur.reverse :: splitRunsAux rest [] true
    else splitRunsAux rest (c :: cur) false

/-- Split a string on maximal runs of comma or semicolon. -/
def splitRuns (s : Chars) : List Chars := splitRunsAux s [] false

/-- Left-to-right maximal-token scan of re.findall with the pattern
consisting of one alphanumeric character followed by alphanumerics or
hyphens; cur accumulates the current token in reverse (empty when no token
is open). -/
def scanAux : List Char → List Char → List Chars
  | [], cur => if cur.isEmpty then [] else [cur.reverse]
  | c :: rest, cur =>
    if cur.isEmpty then
      if isAlnum c then scanAux rest [c] else scanAux rest []
    else
      if isTokChar c then scanAux rest (c :: cur)
      else cur.reverse :: scanAux rest []

/-- All maximal word tokens of a text, in order. -/
def scanTokens (text : Chars) : List Chars := scanAux text []

/-- The fixed stopword set of brain.py. -/
def STOPWORDS : List Chars :=
  [cl "the", cl "a", cl "an", cl "is", cl "are", cl "was", cl "were",
   cl "be", cl "been", cl "being",
   cl "have", cl "has", cl "had", cl "do", cl "does", cl "did", cl "will",
   cl "would", cl "could",
   cl "should", cl "may", cl "might", cl "can", cl "shall", cl "to",
   cl "of", cl "in", cl "for",
   cl "on", cl "with", cl "at", cl "by", cl "from", cl "as", cl "into",
   cl "through", cl "during",
   cl "before", cl "after", cl "above", cl "below", cl "between", cl "and",
   cl "but", cl "or",
   cl "not", cl "no", cl "nor", cl "so", cl "yet", cl "both", cl "each",
   cl "this", cl "that",
   cl "these", cl "those", cl "it", cl "its", cl "they", cl "them",
   cl "their", cl "we", cl "our",
   cl "you", cl "your", cl "he", cl "she", cl "his", cl "her", cl "which",
   cl "what", cl "when",
   cl "where", cl "who", cl "whom", cl "how", cl "all", cl "any",
   cl "some", cl "none", cl "if",
   cl "then", cl "than", cl "too", cl "very", cl "just", cl "also",
   cl "about", cl "up", cl "out"]

/-- The lightweight suffix stemmer of brain.py: an ordered chain of
suffix-rewrite rules, first match wins, words of length at most three are
returned unchanged. -/
def stem (w : Chars) : Chars :=
  if w.length ≤ 3 then w
  else if endsW w (cl "ational") then dropR w 7 ++ cl "ate"
  else if endsW w (cl "ization") then dropR w 7 ++ cl "ize"
  else if endsW w (cl "iveness") then dropR w 7 ++ cl "ive"
  else if endsW w (cl "fulness") then dropR w 7 ++ cl "ful"
  else if endsW w (cl "ousness") then dropR w 7 ++ cl "ous"
  else if endsW w (cl "ement") && decide (7 < w.length) then dropR w 5
  else if endsW w (cl "ment") && decide (6 < w.length) then dropR w 4
  else if endsW w (cl "ation") && decide (7 < w.length) then dropR w 5 ++ cl "e"
  else if endsW w (cl "ating") then dropR w 3 ++ cl "e"
  else if endsW w (cl "ling") && decide (5 < w.length) && !(w.reverse.getD 4 'l' == 'l') then
    dropR w 3 ++ cl "e"
  else if endsW w (cl "ying") then dropR w 4 ++ cl "y"
  else if endsW w (cl "ting") && decide (5 < w.length) && !(endsW w (cl "sting"))
      && !(endsW (dropR w 3) (cl "t")) then dropR w 3
  else if endsW w (cl "sses") then dropR w 2
  else if endsW w (cl "ies") && decide (4 < w.length) then dropR w 3 ++ cl "y"
  else if endsW w (cl "ness") && decide (5 < w.length) then dropR w 4
  else if endsW w (cl "less") then dropR w 4
  else if endsW w (cl "able") && decide (5 < w.length) then dropR w 4
  else if endsW w (cl "ible") && decide (5 < w.length) then dropR w 4
  else if endsW w (cl "ally") then dropR w 4 ++ cl "al"
  else if endsW w (cl "ing") && decide (4 < w.length) && lastTwoEq (dropR w 3) then
    (dropR w 3).dropLast
  else if endsW w (cl "ing") && decide (4 < w.length) && decide (2 < (dropR w 3).length) then
    dropR w 3
  else if endsW w (cl "ment") && decide (5 < w.length) then dropR w 4
  else if endsW w (cl "ful") && decide (4 < w.length) then dropR w 3
  else if endsW w (cl "ous") && decide (4 < w.length) then dropR w 3
  else if endsW w (cl "ive") && decide (4 < w.length) then dropR w 3
  else if endsW w (cl "ized") then dropR w 4 ++ cl "ize"
  else if endsW w (cl "ised") then dropR w 4 ++ cl "ise"
  else if endsW w (cl "tion") then dropR w 4 ++ cl "t"
  else if endsW w (cl "ed") && decide (3 < w.length) && endsW (dropR w 2) (cl "i") then
    (dropR w 2).dropLast ++ cl "y"
  else if endsW w (cl "ed") && decide (3 < w.length) && lastTwoEq (dropR w 2) then
    (dropR w 2).dropLast
  else if endsW w (cl "ed") && decide (3 < w.length) then dropR w 2
  else if endsW w (cl "er") && decide (4 < w.length) then dropR w 2
  else if endsW w (cl "ly") && decide (4 < w.length) then dropR w 2
  else if endsW w (cl "es") && decide (3 < w.length) then
    (if endsW w (cl "ches") || endsW w (cl "shes") || endsW w (cl "sses") then dropR w 2
     else dropR w 2)
  else if endsW w (cl "s") && !(endsW w (cl "ss")) && decide (3 < w.length) then dropR w 1
  else w

/-- Tokenize text: lowercase, extract word tokens, expand hyphenated tokens
into their components as additional tokens, remove stopwords and length-one
tokens, stem the survivors. -/
def tokenize (text : Chars) : List Chars :=
  let raw := scanTokens (text.map Char.toLower)
  let expanded := raw.flatMap
    (fun t => t :: (if t.contains '-' then (splitCh '-' t).filter (fun p => !p.isEmpty) else []))
  (expanded.filter (fun t => !(STOPWORDS.contains t) && decide (1 < t.length))).map stem

/-- Searchable metadata record of one entry; a field the underlying
dictionary lacks is the empty string, matching entry.get with default. -/
structure Entry where
  id : Chars
  tags : Chars
  links : Chars
  summary : Chars
  etype : Chars
  file : Chars
  known_issues : Chars
deriving DecidableEq

/-- Weighted document of one entry: tags five times, id four times, then
summary, type, file and known issues once each, space-joined and
tokenized. -/
def entry_to_corpus_doc (e : Entry) : List Chars :=
  tokenize (List.intercalate (cl " ")
    [e.tags, e.tags, e.tags, e.tags, e.tags,
     e.id, e.id, e.id, e.id,
     e.summary, e.etype, e.file, e.known_issues])

/-- Modelled from the spec: number of built documents containing term t,
written n(t) in section 4.4; the BM25Okapi routine of the external rank_bm25
library that computes the term statistics is not part of this repository. -/
def docFreq (corpus : List (List Chars)) (t : Chars) : ℚ :=
  ((corpus.filter (fun d => d.contains t)).length : ℚ)

/-- Modelled from the spec: mean document length in tokens (avgdl of
section 4.4), supplied there for the external rank_bm25 scorer. -/
def avgdl (corpus : List (List Chars)) : ℚ :=
  (corpus.map (fun d => ((d.length : ℚ)))).sum / (corpus.length : ℚ)

/-- Modelled from the spec: unfloored inverse document frequency
ln((N - n(t) + 0.5) / (n(t) + 0.5) + 1) of section 4.4, with the natural
logarithm abstracted as the parameter ln; the external rank_bm25 scorer is
not part of this repository. -/
def idfRaw (ln : ℚ → ℚ) (corpus : List (List Chars)) (t : Chars) : ℚ :=
  ln ((((corpus.length : ℚ) - docFreq corpus t + 1/2) / (docFreq corpus t + 1/2)) + 1)

/-- All distinct terms occurring in the corpus. -/
def vocabOf (corpus : List (List Chars)) : List Chars := corpus.flatten.dedup

/-- Modelled from the spec: the positive unfloored idf values across all
corpus terms, from which section 4.4 derives the flooring epsilon. -/
def posIdf (ln : ℚ → ℚ) (corpus : List (List Chars)) : List ℚ :=
  ((vocabOf corpus).map (idfRaw ln corpus)).filter (fun v => decide (0 < v))

/-- Modelled from the spec: the flooring epsilon of section 4.4, one quarter
of the mean of the positive unfloored idf values. -/
def epsFloor (ln : ℚ → ℚ) (corpus : List (List Chars)) : ℚ :=
  (1/4) * ((posIdf ln corpus).sum / ((posIdf ln corpus).length : ℚ))

/-- Modelled from the spec: inverse document frequency with non-positive
values floored at the epsilon of section 4.4. -/
def idfVal (ln : ℚ → ℚ) (corpus : List (List Chars)) (t : Chars) : ℚ :=
  if idfRaw ln corpus t ≤ 0 then epsFloor ln corpus else idfRaw ln corpus t

/-- Modelled from the spec: BM25 contribution of one term to one document
with k1 = 1 and b = 0.4 (section 4.4), for the external rank_bm25 scorer
that is not part of this repository. -/
def bm25Term (ln : ℚ → ℚ) (corpus : List (List Chars)) (t : Chars) (d : List Chars) : ℚ :=
  idfVal ln corpus t * (d.count t : ℚ) * (1 + 1) /
    ((d.count t : ℚ) + 1 * (1 - 2/5 + 2/5 * (d.length : ℚ) / avgdl corpus))

/-- Modelled from the spec: raw relevance score of every document for a
tokenized query, the sum over distinct query terms of the BM25 contribution
(section 4.4); the external rank_bm25 scorer is not part of this
repository. -/
def bm25_get_scores (ln : ℚ → ℚ) (corpus : List (List Chars)) (query : List Chars) : List ℚ :=
  corpus.map (fun d => ((query.dedup).map (fun t => bm25Term ln corpus t d)).sum)

/-- Tokenized query: the raw query terms joined with single spaces and
tokenized as one text. -/
def queryTokens (query_terms : List Chars) : List Chars :=
  tokenize (List.intercalate (cl " ") query_terms)

/-- Structural boost of one raw query term on one entry's running score:
plus five for an exact match against a trimmed lowercased comma-split tag,
plus four for a substring match against the lowercased id. -/
def boostOne (e : Entry) (score : ℚ) (term : Chars) : ℚ :=
  let tl := term.map Char.toLower
  let tags := (splitCh ',' e.tags).map (fun t => (strip t).map Char.toLower)
  let s1 := if tags.contains tl then score + 5 else score
  if strIn tl (e.id.map Char.toLower) then s1 + 4 else s1

/-- Structural boosts of all raw query terms applied in order to a starting
score. -/
def boostFold (e : Entry) (query_terms : List Chars) (score : ℚ) : ℚ :=
  query_terms.foldl (boostOne e) score

/-- Stage-two list of (boosted score, entry) pairs: raw BM25 score of each
entry plus its structural boosts, in corpus order. -/
def boostedList (ln : ℚ → ℚ) (entries : List Entry) (query_terms : List Chars) :
    List (ℚ × Entry) :=
  let corpus := entries.map entry_to_corpus_doc
  let raw := bm25_get_scores ln corpus (queryTokens query_terms)
  (List.zip raw entries).map (fun re => (boostFold re.2 query_terms re.1, re.2))

/-- Parsed link targets of a links field: split on runs of comma or
semicolon, strip each piece, keep the non-empty ones. -/
def parse_links (links : Chars) : List Chars :=
  ((splitRuns links).map strip).filter (fun p => !p.isEmpty)

/-- Add amt to the pool entry of every listed id, one addition per
occurrence, matching the dictionary update of the propagation loop. -/
def poolAdd (lb : Chars → ℚ) (amt : ℚ) (lids : List Chars) : Chars → ℚ :=
  lids.foldl (fun m lid => fun x => if x = lid then m x + amt else m x) lb

/-- One propagation step: an entry with non-positive score, an empty links
field, or a links field beginning with an underscore contributes nothing;
otherwise 0.15 times its score is added to the pool entry of each parsed
link target. -/
def propStep (lb : Chars → ℚ) (se : ℚ × Entry) : Chars → ℚ :=
  if se.1 ≤ 0 then lb
  else if se.2.links.isEmpty || startsW se.2.links (cl "_") then lb
  else poolAdd lb (se.1 * (3/20)) (parse_links se.2.links)

/-- Link propagation pool over the boosted list, as a total map from id to
accumulated amount (absent ids map to zero, matching dict.get with default
zero). -/
def link_boost (boosted : List (ℚ × Entry)) : Chars → ℚ :=
  boosted.foldl propStep (fun _ => 0)

/-- Every entry of the boosted list paired with its final score: boosted
score plus the pool amount of its id. -/
def finalTotals (ln : ℚ → ℚ) (entries : List Entry) (query_terms : List Chars) :
    List (ℚ × Entry) :=
  (boostedList ln entries query_terms).map
    (fun se => (se.1 + link_boost (boostedList ln entries query_terms) se.2.id, se.2))

/-- The kept results before sorting: entries whose final score is strictly
positive, in corpus order; an empty tokenized query keeps nothing, matching
the early return of score_entries_bm25. -/
def keptEntries (ln : ℚ → ℚ) (entries : List Entry) (query_terms : List Chars) :
    List (ℚ × Entry) :=
  if queryTokens query_terms = [] then []
  else (finalTotals ln entries query_terms).filter (fun p => decide (0 < p.1))

/-- Insert a pair into a descending-sorted list, after every pair of
greater or equal score. -/
def insertDesc (a : ℚ × Entry) : List (ℚ × Entry) → List (ℚ × Entry)
  | [] => [a]
  | b :: l => if b.1 ≤ a.1 then a :: b :: l else b :: insertDesc a l

/-- Stable sort by score descending (the behaviour of Python list.sort with
a key and reverse=True). -/
def sortDesc : List (ℚ × Entry) → List (ℚ × Entry)
  | [] => []
  | a :: l => insertDesc a (sortDesc l)

/-- The ranking engine: BM25 raw scores, structural boosts, one hop of link
propagation, strict positivity filter, stable descending sort. -/
def score_entries_bm25 (ln : ℚ → ℚ) (entries : List Entry) (query_terms : List Chars) :
    List (ℚ × Entry) :=
  sortDesc (keptEntries ln entries query_terms)

/-- A concrete stand-in for the abstract logarithm, used at concrete
inputs whose scores do not depend on it. -/
def lnZero : ℚ → ℚ := fun _ => 0

/-- No rule of the stemmer chain before the general ing rule matches the
word: the conjunction of the negations of all the guard conditions that
precede that rule. -/
def noEarlierIngRule (w : Chars) : Bool :=
  !(endsW w (cl "ational")) && !(endsW w (cl "ization")) && !(endsW w (cl "iveness")) &&
  !(endsW w (cl "fulness")) && !(endsW w (cl "ousness")) &&
  !(endsW w (cl "ement") && decide (7 < w.length)) &&
  !(endsW w (cl "ment") && decide (6 < w.length)) &&
  !(endsW w (cl "ation") && decide (7 < w.length)) &&
  !(endsW w (cl "ating")) &&
  !(endsW w (cl "ling") && decide (5 < w.length) && !(w.reverse.getD 4 'l' == 'l')) &&
  !(endsW w (cl "ying")) &&
  !(endsW w (cl "ting") && decide (5 < w.length) && !(endsW w (cl "sting"))
      && !(endsW (dropR w 3) (cl "t"))) &&
  !(endsW w (cl "sses")) &&
  !(endsW w (cl "ies") && decide (4 < w.length)) &&
  !(endsW w (cl "ness") && decide (5 < w.length)) &&
  !(endsW w (cl "less")) &&
  !(endsW w (cl "able") && decide (5 < w.length)) &&
  !(endsW w (cl "ible") && decide (5 < w.length)) &&
  !(endsW w (cl "ally"))

/-- Concrete entry with a links field whose underscore placeholder sits in
second position. -/
def eCA : Entry := ⟨cl "ABCD", cl "", cl "X,_none", cl "", cl "", cl "", cl ""⟩

/-- Concrete entry linking to the id B. -/
def eW : Entry := ⟨cl "A", cl "", cl "B", cl "", cl "", cl "", cl ""⟩

/-- Concrete entry used twice in a corpus to form duplicate ids. -/
def eDup : Entry := ⟨cl "AA-1", cl "qq", cl "", cl "", cl "", cl "", cl ""⟩

theorem insertDesc_perm (a : ℚ × Entry) (l : List (ℚ × Entry)) :
    (insertDesc a l).Perm (a :: l) := by
  induction l with
  | nil => simp [insertDesc]
  | cons b t ih =>
    by_cases h : b.1 ≤ a.1
    · simp [insertDesc, h]
    · simp only [insertDesc, if_neg h]
      exact (ih.cons b).trans (List.Perm.swap a b t)

theorem sortDesc_perm (l : List (ℚ × Entry)) : (sortDesc l).Perm l := by
  induction l with
  | nil => simp [sortDesc]
  | cons a t ih => exact (insertDesc_perm a (sortDesc t)).trans (ih.cons a)

theorem insertDesc_pairwise (a : ℚ × Entry) (l : List (ℚ × Entry))
    (hl : l.Pairwise (fun x y => y.1 ≤ x.1)) :
    (insertDesc a l).Pairwise (fun x y => y.1 ≤ x.1) := by
  induction l with
  | nil => simp [insertDesc]
  | cons b t ih =>
    rcases List.pairwise_cons.mp hl with ⟨hb, ht⟩
    by_cases h : b.1 ≤ a.1
    · simp only [insertDesc, if_pos h]
      refine List.pairwise_cons.mpr ⟨?_, hl⟩
      intro y hy
      rcases List.mem_cons.mp hy with rfl | hy2
      · exact h
      · exact le_trans (hb y hy2) h
    · simp only [insertDesc, if_neg h]
      refine List.pairwise_cons.mpr ⟨?_, ih ht⟩
      intro y hy
      rcases List.mem_cons.mp ((insertDesc_perm a t).mem_iff.mp hy) with rfl | hy2
      · exact le_of_not_le h
      · exact hb y hy2

theorem sortDesc_pairwise (l : List (ℚ × Entry)) :
    (sortDesc l).Pairwise (fun x y => y.1 ≤ x.1) := by
  induction l with
  | nil => simp [sortDesc]
  | cons a t ih => exact insertDesc_pairwise a (sortDesc t) ih

theorem insertDesc_filter (a : ℚ × Entry) (l : List (ℚ × Entry)) (s : ℚ) :
    (insertDesc a l).filter (fun p => decide (p.1 = s)) =
      (a :: l).filter (fun p => decide (p.1 = s)) := by
  induction l with
  | nil => rfl
  | cons b t ih =>
    by_cases h : b.1 ≤ a.1
    · simp only [insertDesc, if_pos h]
    · simp only [insertDesc, if_neg h, List.filter_cons, ih]
      by_cases ha : a.1 = s
      · have hbs : ¬ (b.1 = s) := fun e => h (le_of_eq (e.trans ha.symm))
        simp [ha, hbs]
      · by_cases hbs : b.1 = s <;> simp [ha, hbs]

theorem sortDesc_filter (l : List (ℚ × Entry)) (s : ℚ) :
    (sortDesc l).filter (fun p => decide (p.1 = s)) =
      l.filter (fun p => decide (p.1 = s)) := by
  induction l with
  | nil => rfl
  | cons a t ih =>
    calc (sortDesc (a :: t)).filter (fun p => decide (p.1 = s))
        = (a :: sortDesc t).filter (fun p => decide (p.1 = s)) :=
          insertDesc_filter a (sortDesc t) s
      _ = (a :: t).filter (fun p => decide (p.1 = s)) := by
          simp only [List.filter_cons, ih]

theorem poolAdd_apply (lids : List Chars) (m : Chars → ℚ) (amt : ℚ) (k : Chars) :
    poolAdd m amt lids k = m k + amt * (lids.count k : ℚ) := by
  induction lids generalizing m with
  | nil => simp [poolAdd]
  | cons lid rest ih =>
    simp only [poolAdd, List.foldl_cons] at *
    rw [ih]
    by_cases h : k = lid
    · subst h
      rw [List.count_cons]
      simp only [beq_self_eq_true, if_true]
      push_cast
      ring
    · rw [List.count_cons]
      have : (lid == k) = false := by
        simp [beq_eq_false_iff_ne]
        exact fun e => h e.symm
      simp [h, this]

theorem propStep_apply (m : Chars → ℚ) (se : ℚ × Entry) (k : Chars) :
    propStep m se k = m k +
      (if 0 < se.1 ∧ (se.2.links.isEmpty || startsW se.2.links (cl "_")) = false
       then se.1 * (3/20) * (((parse_links se.2.links).count k : ℚ)) else 0) := by
  unfold propStep
  by_cases h1 : se.1 ≤ 0
  · have : ¬ (0 < se.1 ∧ (se.2.links.isEmpty || startsW se.2.links (cl "_")) = false) :=
      fun h => absurd h.1 (not_lt.mpr h1)
    simp [h1, this]
  · by_cases h2 : (se.2.links.isEmpty || startsW se.2.links (cl "_")) = true
    · have : ¬ (0 < se.1 ∧ (se.2.links.isEmpty || startsW se.2.links (cl "_")) = false) := by
        rw [h2]; rintro ⟨-, h⟩; cases h
      simp [h1, h2, this]
    · have h2' : (se.2.links.isEmpty || startsW se.2.links (cl "_")) = false :=
        Bool.eq_false_iff.mpr h2
      simp [h1, h2', not_le.mp h1, poolAdd_apply]

theorem link_boost_aux (l : List (ℚ × Entry)) (m : Chars → ℚ) (k : Chars) :
    (l.foldl propStep m) k = m k +
      (l.map (fun se =>
        if 0 < se.1 ∧ (se.2.links.isEmpty || startsW se.2.links (cl "_")) = false
        then se.1 * (3/20) * (((parse_links se.2.links).count k : ℚ)) else 0)).sum := by
  induction l generalizing m with
  | nil => simp
  | cons x t ih =>
    simp only [List.foldl_cons, List.map_cons, List.sum_cons]
    rw [ih, propStep_apply]
    ring

theorem link_boost_apply (boosted : List (ℚ × Entry)) (k : Chars) :
    link_boost boosted k =
      (boosted.map (fun se =>
        if 0 < se.1 ∧ (se.2.links.isEmpty || startsW se.2.links (cl "_")) = false
        then se.1 * (3/20) * (((parse_links se.2.links).count k : ℚ)) else 0)).sum := by
  unfold link_boost
  rw [link_boost_aux]
  simp

theorem boostOne_eq (e : Entry) (s : ℚ) (t : Chars) :
    boostOne e s t = s +
      ((if ((splitCh ',' e.tags).map (fun x => (strip x).map Char.toLower)).contains
            (t.map Char.toLower) then (5:ℚ) else 0) +
       (if strIn (t.map Char.toLower) (e.id.map Char.toLower) then (4:ℚ) else 0)) := by
  simp only [boostOne]
  split_ifs <;> ring

theorem boostFold_eq (e : Entry) (qts : List Chars) (s : ℚ) :
    boostFold e qts s = s +
      (qts.map (fun t =>
        (if ((splitCh ',' e.tags).map (fun x => (strip x).map Char.toLower)).contains
             (t.map Char.toLower) then (5:ℚ) else 0) +
        (if strIn (t.map Char.toLower) (e.id.map Char.toLower) then (4:ℚ) else 0))).sum := by
  induction qts generalizing s with
  | nil => simp [boostFold]
  | cons t rest ih =>
    simp only [boostFold, List.foldl_cons, List.map_cons, List.sum_cons] at *
    rw [ih, boostOne_eq]
    ring

theorem boostedList_map_snd (ln : ℚ → ℚ) (entries : List Entry) (qts : List Chars) :
    (boostedList ln entries qts).map Prod.snd = entries := by
  unfold boostedList
  rw [List.map_map]
  have hlen : entries.length ≤
      (bm25_get_scores ln (entries.map entry_to_corpus_doc) (queryTokens qts)).length := by
    simp [bm25_get_scores]
  calc (List.zip (bm25_get_scores ln (entries.map entry_to_corpus_doc) (queryTokens qts))
          entries).map
        ((Prod.snd) ∘ fun re => (boostFold re.2 qts re.1, re.2))
      = (List.zip (bm25_get_scores ln (entries.map entry_to_corpus_doc) (queryTokens qts))
          entries).map Prod.snd := by rfl
    _ = entries := List.map_snd_zip _ _ hlen

theorem finalTotals_map_snd (ln : ℚ → ℚ) (entries : List Entry) (qts : List Chars) :
    (finalTotals ln entries qts).map Prod.snd = entries := by
  unfold finalTotals
  rw [List.map_map]
  exact boostedList_map_snd ln entries qts

theorem keptEntries_map_snd_sublist (ln : ℚ → ℚ) (entries : List Entry) (qts : List Chars) :
    ((keptEntries ln entries qts).map Prod.snd).Sublist entries := by
  unfold keptEntries
  split
  · simp
  · calc ((finalTotals ln entries qts).filter (fun p => decide (0 < p.1))).map Prod.snd
        |>.Sublist ((finalTotals ln entries qts).map Prod.snd) :=
          List.Sublist.map Prod.snd (List.filter_sublist _)
      _ = entries := finalTotals_map_snd ln entries qts

theorem head?_dropWhile_isWS (l : List Char) (c : Char)
    (h : (l.dropWhile isWS).head? = some c) : isWS c = false := by
  induction l with
  | nil => simp at h
  | cons a t ih =>
    rw [List.dropWhile_cons] at h
    by_cases ha : isWS a = true
    · rw [if_pos ha] at h
      exact ih h
    · rw [if_neg ha] at h
      simp only [List.head?_cons, Option.some.injEq] at h
      subst h
      exact Bool.eq_false_iff.mpr ha

theorem getLast?_dropWhile_isWS (l : List Char) (h : l.dropWhile isWS ≠ []) :
    (l.dropWhile isWS).getLast? = l.getLast? := by
  induction l with
  | nil => simp at h
  | cons a t ih =>
    rw [List.dropWhile_cons]
    by_cases ha : isWS a = true
    · rw [List.dropWhile_cons, if_pos ha] at h
      have ht : t ≠ [] := by
        intro e
        rw [e] at h
        simp at h
      rw [if_pos ha, ih h]
      cases t with
      | nil => exact absurd rfl ht
      | cons b u => rw [List.getLast?_cons_cons]
    · rw [if_neg ha]

theorem strip_head_last (q : Chars) (h : strip q ≠ []) :
    isWS ((strip q).headD ' ') = false ∧ isWS ((strip q).getLastD ' ') = false := by
  have hB : (q.dropWhile isWS).reverse.dropWhile isWS ≠ [] := by
    intro e
    apply h
    unfold strip
    rw [e]
    rfl
  have hA : q.dropWhile isWS ≠ [] := by
    intro e
    apply hB
    rw [e]
    rfl
  constructor
  · have h1 : (strip q).head? = ((q.dropWhile isWS).reverse.dropWhile isWS).getLast? := by
      unfold strip
      exact List.head?_reverse _
    rw [getLast?_dropWhile_isWS _ hB, List.getLast?_reverse] at h1
    cases hc : (q.dropWhile isWS).head? with
    | none => exact absurd (List.head?_eq_none_iff.mp hc) hA
    | some c =>
      rw [hc] at h1
      have := head?_dropWhile_isWS q c hc
      cases hs : strip q with
      | nil => exact absurd hs h
      | cons x xs =>
        rw [hs] at h1
        simp only [List.head?_cons, Option.some.injEq] at h1
        subst h1
        simpa using this
  · have h1 : (strip q).getLast? = ((q.dropWhile isWS).reverse.dropWhile isWS).head? := by
      unfold strip
      exact List.getLast?_reverse _
    cases hc : ((q.dropWhile isWS).reverse.dropWhile isWS).head? with
    | none => exact absurd (List.head?_eq_none_iff.mp hc) hB
    | some c =>
      rw [hc] at h1
      have := head?_dropWhile_isWS (q.dropWhile isWS).reverse c hc
      cases hs : strip q with
      | nil => exact absurd hs h
      | cons x xs =>
        rw [hs] at h1
        have h2 : (x :: xs).getLastD ' ' = c := by
          have := List.getLastD_eq_getLast? ' ' (x :: xs)
          rw [this, h1]
          rfl
        rw [h2]
        exact this

/-- C1: running the ranking engine on an empty entry corpus returns the
empty result list, for every query term list, empty or not. -/
theorem C1_empty_corpus (ln : ℚ → ℚ) (query_terms : List Chars) :
    score_entries_bm25 ln [] query_terms = [] := by
  unfold score_entries_bm25 keptEntries
  split
  · rfl
  · simp [finalTotals, boostedList, sortDesc, List.zip_nil_right]

/-- C2: every document's raw relevance score is the sum over the distinct
query terms of the BM25 contribution with k1 equal to one and b equal to
two fifths, the idf being the logarithm of (N minus n plus one half) over
(n plus one half), plus one, floored when non-positive at one quarter of
the mean of the positive idf values over the corpus vocabulary. -/
theorem C2_bm25_formula (ln : ℚ → ℚ) (corpus : List (List Chars)) (query : List Chars) :
    bm25_get_scores ln corpus query = corpus.map (fun d =>
      ((query.dedup).map (fun t =>
        (if ln (((corpus.length : ℚ) - docFreq corpus t + 1/2) / (docFreq corpus t + 1/2) + 1)
            ≤ 0
         then (1/4) * ((posIdf ln corpus).sum / ((posIdf ln corpus).length : ℚ))
         else ln (((corpus.length : ℚ) - docFreq corpus t + 1/2) / (docFreq corpus t + 1/2) + 1))
        * (d.count t : ℚ) * (1 + 1) /
        ((d.count t : ℚ) + 1 * (1 - 2/5 + 2/5 * (d.length : ℚ) / avgdl corpus)))).sum) ∧
    posIdf ln corpus = ((corpus.flatten.dedup).map (fun t =>
      ln (((corpus.length : ℚ) - docFreq corpus t + 1/2) / (docFreq corpus t + 1/2)
        + 1))).filter (fun v => decide (0 < v)) := by
  constructor
  · rfl
  · rfl

/-- C3 counterexample: going is a five-letter word ending in ing that no
earlier stemmer rule rewrites, yet stem leaves it unchanged instead of
dropping the suffix to give its two-letter base. -/
theorem C3_counterexample :
    noEarlierIngRule (cl "going") = true ∧ endsW (cl "going") (cl "ing") = true ∧
    4 < (cl "going").length ∧ stem (cl "going") = cl "going" ∧ cl "going" ≠ cl "go" := by
  decide

/-- C3 amended: for a word ending in ing, longer than four characters and
rewritten by no earlier rule, the ing rule drops the suffix together with
the extra letter of a doubled base ending, and drops the bare suffix when
the word is longer than five characters; a five-letter word whose base is
not doubled falls through the rule. -/
theorem C3_ing_rule_amended (w : Chars) (hno : noEarlierIngRule w = true)
    (hing : endsW w (cl "ing") = true) (hlen : 4 < w.length)
    (hcase : lastTwoEq (dropR w 3) = true ∨ 5 < w.length) :
    stem w = (if lastTwoEq (dropR w 3) then (dropR w 3).dropLast else dropR w 3) := by
  simp only [noEarlierIngRule, Bool.and_eq_true, Bool.not_eq_true', and_assoc] at hno
  obtain ⟨h1, h2, h3, h4, h5, h6, h7, h8, h9, h10, h11, h12, h13, h14, h15,
    h16, h17, h18, h19⟩ := hno
  have hlen3 : ¬ w.length ≤ 3 := by omega
  have hlen4 : decide (4 < w.length) = true := decide_eq_true hlen
  have hies : endsW w (cl "ies") = false := by
    revert h14
    rw [hlen4]
    cases endsW w (cl "ies") <;> simp
  unfold stem
  rw [if_neg hlen3]
  simp only [h1, h2, h3, h4, h5, h6, h7, h8, h9, h10, h11, h12, h13, h14, h15,
    h16, h17, h18, h19, hies, hing, hlen4, Bool.false_eq_true, if_false,
    Bool.true_and, Bool.and_true]
  rcases hcase with hdbl | hgt
  · rw [hdbl]
    simp
  · by_cases hdbl : lastTwoEq (dropR w 3) = true
    · rw [hdbl]
      simp
    · have hdbl' : lastTwoEq (dropR w 3) = false := Bool.eq_false_iff.mpr hdbl
      have hl : (dropR w 3).length = w.length - 3 := by
        simp only [dropR, List.length_take]
        exact Nat.min_eq_left (Nat.sub_le _ _)
      have h2lt : decide (2 < (dropR w 3).length) = true := by
        rw [hl]
        exact decide_eq_true (by omega)
      rw [hdbl', h2lt]
      simp

/-- Witness for the amended ing rule at the word searching. -/
theorem C3_ing_rule_amended_witness :
    (noEarlierIngRule (cl "searching") = true ∧ endsW (cl "searching") (cl "ing") = true ∧
     4 < (cl "searching").length ∧
     (lastTwoEq (dropR (cl "searching") 3) = true ∨ 5 < (cl "searching").length)) ∧
    stem (cl "searching") =
      (if lastTwoEq (dropR (cl "searching") 3) then (dropR (cl "searching") 3).dropLast
       else dropR (cl "searching") 3) :=
  ⟨⟨by decide, by decide, by decide, by decide⟩,
    C3_ing_rule_amended (cl "searching") (by decide) (by decide) (by decide) (by decide)⟩

/-- C4 counterexample: an entry whose links field is X,_none propagates
0.15 times its score of four to the target id _none, even though that
parsed value carries a leading underscore. -/
theorem C4_counterexample :
    parse_links (cl "X,_none") = [cl "X", cl "_none"] ∧
    startsW (cl "_none") (cl "_") = true ∧
    link_boost [((4:ℚ), eCA)] (cl "_none") = 3/5 := by
  refine ⟨by decide, by decide, ?_⟩
  rw [link_boost_apply]
  simp only [List.map_cons, List.map_nil, List.sum_cons, List.sum_nil]
  rw [if_pos ⟨by norm_num, by decide⟩]
  have hc : ((parse_links eCA.links).count (cl "_none")) = 1 := by decide
  rw [hc]
  norm_num

/-- C4 amended: a links field is skipped in its entirety when it is empty
or when the whole field begins with an underscore; otherwise it is split on
runs of commas and semicolons, every piece is trimmed and the empty pieces
are dropped, so each parsed target is non-empty with no leading or trailing
whitespace; a piece with a leading underscore in non-initial position is
not dropped. -/
theorem C4_link_parsing_amended (s : ℚ) (e : Entry) (rest : List (ℚ × Entry))
    (k ws links : Chars) :
    link_boost ((s, { e with links := '_' :: ws }) :: rest) k = link_boost rest k ∧
    link_boost ((s, { e with links := [] }) :: rest) k = link_boost rest k ∧
    (parse_links links).all
      (fun p => !p.isEmpty && !(isWS (p.headD ' ')) && !(isWS (p.getLastD ' '))) = true := by
  refine ⟨?_, ?_, ?_⟩
  · have hskip : propStep (fun _ => 0) (s, { e with links := '_' :: ws }) = (fun _ => 0) := by
      unfold propStep
      have hsw : startsW ('_' :: ws) (cl "_") = true := by
        simp [startsW, cl, List.take]
      simp [hsw]
    unfold link_boost
    rw [List.foldl_cons, hskip]
  · have hskip : propStep (fun _ => 0) (s, { e with links := [] }) = (fun _ => 0) := by
      unfold propStep
      simp
    unfold link_boost
    rw [List.foldl_cons, hskip]
  · rw [List.all_eq_true]
    intro p hp
    unfold parse_links at hp
    obtain ⟨hp1, hp2⟩ := List.mem_filter.mp hp
    have hpne : p ≠ [] := by
      intro e
      rw [e] at hp2
      simp at hp2
    obtain ⟨q, -, hq2⟩ := List.mem_map.mp hp1
    subst hq2
    obtain ⟨hh, hl⟩ := strip_head_last q hpne
    have he : (strip q).isEmpty = false := by
      cases hq : strip q with
      | nil => exact absurd hq hpne
      | cons a t => rfl
    rw [he, hh, hl]
    rfl

/-- C5: each entry of the boosted list with strictly positive score and a
usable links field adds 0.15 times its score to the pool entry of every
parsed link target, once per occurrence, summed across source entries; the
totals list then pairs every boosted entry with its boosted score plus the
pool amount of its id. -/
theorem C5_link_propagation (boosted : List (ℚ × Entry)) (k : Chars) :
    link_boost boosted k = (boosted.map (fun se =>
      if 0 < se.1 ∧ (se.2.links.isEmpty || startsW se.2.links (cl "_")) = false
      then se.1 * (3/20) * (((parse_links se.2.links).count k : ℚ)) else 0)).sum ∧
    ∀ s e, (s, e) ∈ boosted →
      (s + link_boost boosted e.id, e) ∈
        boosted.map (fun se => (se.1 + link_boost boosted se.2.id, se.2)) := by
  refine ⟨link_boost_apply boosted k, ?_⟩
  intro s e hm
  exact List.mem_map_of_mem _ hm

/-- Witness for C5 at a concrete one-element boosted list. -/
theorem C5_link_propagation_witness :
    ((5:ℚ), eW) ∈ [((5:ℚ), eW)] ∧
    (5 + link_boost [((5:ℚ), eW)] (cl "A"), eW) ∈
      [((5:ℚ), eW)].map (fun se => (se.1 + link_boost [((5:ℚ), eW)] se.2.id, se.2)) :=
  ⟨by decide, (C5_link_propagation [((5:ℚ), eW)] (cl "B")).2 5 eW (by decide)⟩

/-- C6: the structural booster adds a flat five for each raw lowercased
query term exactly equal to a trimmed lowercased comma-split tag of the
entry and a flat four for each term occurring as a substring of the
entry's lowercased id, accumulating additively over the query terms. -/
theorem C6_structural_boost (e : Entry) (query_terms : List Chars) (s : ℚ) :
    boostFold e query_terms s = s + (query_terms.map (fun t =>
      (if ((splitCh ',' e.tags).map (fun x => (strip x).map Char.toLower)).contains
           (t.map Char.toLower) then (5:ℚ) else 0) +
      (if strIn (t.map Char.toLower) (e.id.map Char.toLower) then (4:ℚ) else 0))).sum :=
  boostFold_eq e query_terms s

/-- C7: the results are sorted by final score descending; the results of
any fixed final score appear in the same order as in the kept list, whose
entries follow the input corpus order. -/
theorem C7_ordering (ln : ℚ → ℚ) (entries : List Entry) (query_terms : List Chars) (s : ℚ) :
    (score_entries_bm25 ln entries query_terms).Pairwise (fun x y => y.1 ≤ x.1) ∧
    (score_entries_bm25 ln entries query_terms).filter (fun p => decide (p.1 = s)) =
      (keptEntries ln entries query_terms).filter (fun p => decide (p.1 = s)) ∧
    ((keptEntries ln entries query_terms).map Prod.snd).Sublist entries :=
  ⟨sortDesc_pairwise _, sortDesc_filter _ s,
    keptEntries_map_snd_sublist ln entries query_terms⟩

/-- C8: the entries of the output form a sub-multiset of the input corpus,
so each input entry occurrence yields at most one result, and every
returned final score is strictly positive. -/
theorem C8_output_invariant (ln : ℚ → ℚ) (entries : List Entry) (query_terms : List Chars) :
    ((score_entries_bm25 ln entries query_terms).map Prod.snd).Subperm entries ∧
    (score_entries_bm25 ln entries query_terms).all (fun p => decide (0 < p.1)) = true := by
  constructor
  · exact ⟨(keptEntries ln entries query_terms).map Prod.snd,
      (List.Perm.map Prod.snd (sortDesc_perm _)).symm,
      keptEntries_map_snd_sublist ln entries query_terms⟩
  · rw [List.all_eq_true]
    intro p hp
    have hp2 : p ∈ keptEntries ln entries query_terms :=
      (sortDesc_perm _).mem_iff.mp hp
    unfold keptEntries at hp2
    split at hp2
    · cases hp2
    · exact (List.mem_filter.mp hp2).2

/-- C9: the stemmer fidelity vector of the spec, together with identity on
every word of length at most three. -/
theorem C9_stemmer_fidelity :
    stem (cl "running") = cl "run" ∧ stem (cl "searching") = cl "search" ∧
    stem (cl "applied") = cl "apply" ∧ stem (cl "stopped") = cl "stop" ∧
    ∀ w : Chars, w.length ≤ 3 → stem w = w := by
  refine ⟨by decide, by decide, by decide, by decide, ?_⟩
  intro w h
  unfold stem
  rw [if_pos h]

/-- Witness for C9 at the word cat. -/
theorem C9_stemmer_fidelity_witness :
    (cl "cat").length ≤ 3 ∧ stem (cl "cat") = cl "cat" :=
  ⟨by decide, C9_stemmer_fidelity.2.2.2.2 (cl "cat") (by decide)⟩

/-- C10: for every corpus, including one with duplicate ids, the engine
emits one pair per input entry of positive final score, each entry keeping
its own boosted score plus the pool amount of its id; the totals list
carries exactly one pair per input entry. -/
theorem C10_per_entry_results (ln : ℚ → ℚ) (entries : List Entry)
    (query_terms : List Chars) (h : queryTokens query_terms ≠ []) :
    (score_entries_bm25 ln entries query_terms).Perm
      ((finalTotals ln entries query_terms).filter (fun p => decide (0 < p.1))) ∧
    (finalTotals ln entries query_terms).map Prod.snd = entries := by
  constructor
  · unfold score_entries_bm25 keptEntries
    rw [if_neg h]
    exact sortDesc_perm _
  · exact finalTotals_map_snd ln entries query_terms

/-- Witness for C10 on a corpus with a duplicated id. -/
theorem C10_per_entry_results_witness :
    queryTokens [cl "qq"] ≠ [] ∧
    ((score_entries_bm25 lnZero [eDup, eDup] [cl "qq"]).Perm
      ((finalTotals lnZero [eDup, eDup] [cl "qq"]).filter (fun p => decide (0 < p.1))) ∧
    (finalTotals lnZero [eDup, eDup] [cl "qq"]).map Prod.snd = [eDup, eDup]) :=
  ⟨by decide, C10_per_entry_results lnZero [eDup, eDup] [cl "qq"] (by decide)⟩

